import Mathlib

/-!
Verification development for the TCreator application (src/TCreator/Main.py).

The Python program's extraction-and-templating layer is shallowly embedded:

* file contents are `List Char` (Python `str` read from disk);
* the fixed regular expressions used by `get_replaced_values` are embedded as
  deterministic scanners.  Each of those patterns has the shape
  literal/word-run, `\s+=\s+`, lazy capture up to `;` (or up to `));` for the
  map-entry pattern).  For these patterns Python's backtracking search is
  deterministic: a greedy `\w+` or `\s+` run can never be usefully shortened
  (the character after a shorter run would be of the same class and make the
  next pattern element fail), and the lazy `(.*?)` extends one non-newline
  character at a time until the closing literal matches.  The scanners below
  implement exactly that.  `\w` and `\s` are modelled over their ASCII
  ranges, as is `str.upper`;
* Python dicts are association lists in insertion order (`dictInsert`
  updates an existing key in place, otherwise appends);
* file-system access is modelled by passing in either the read result
  (`Option (List Char)`: `none` models an IOError on `open`) or an abstract
  directory-listing oracle; `print` output is returned as a list of messages;
* `str.replace` is `pyReplace` (non-overlapping, left to right), and the
  replacement loop of `create_file_from_template` is `render`.
-/

/-! ## Definitions -/

/-- Python `\w` over its ASCII range: `[a-zA-Z0-9_]`. -/
def isWordChar (c : Char) : Bool := c.isAlphanum || c = '_'

/-- Python `\s` over its ASCII range: space, tab, newline, carriage return,
form feed, vertical tab. -/
def isSpaceChar (c : Char) : Bool :=
  c = ' ' || c = '\t' || c = '\n' || c = '\r' || c = '\x0c' || c = '\x0b'

/-- `leadsWith p s` is true when `p` is an initial segment of `s`. -/
def leadsWith : List Char → List Char → Bool
  | [], _ => true
  | _ :: _, [] => false
  | c :: p, d :: s => c = d && leadsWith p s

/-- Executable substring scan: does `p` appear starting at some position? -/
def occursB (p : List Char) : List Char → Bool
  | [] => leadsWith p []
  | c :: rest => leadsWith p (c :: rest) || occursB p rest

/-- `occurs p s` holds when `p` appears as a contiguous substring of `s`
(characterised by `occurs_iff` below). -/
def occurs (p s : List Char) : Prop := occursB p s = true

instance (p s : List Char) : Decidable (occurs p s) :=
  inferInstanceAs (Decidable (occursB p s = true))

/-! ### The regex scanners of `get_replaced_values` -/

/-- Tail `(.*?);`: capture the shortest run of non-newline characters followed
by `;`; returns the capture and the remainder after the `;`. -/
def lazyCaptureSemi : List Char → Option (List Char × List Char)
  | [] => none
  | c :: rest =>
    if c = ';' then some ([], rest)
    else if c = '\n' then none
    else
      match lazyCaptureSemi rest with
      | some (cap, r) => some (c :: cap, r)
      | none => none

/-- Pattern tail `\s+=\s+(.*?);`. -/
def matchAssignTail (cs : List Char) : Option (List Char × List Char) :=
  let ws1 := cs.takeWhile isSpaceChar
  let r1 := cs.dropWhile isSpaceChar
  if ws1 = [] then none
  else
    match r1 with
    | '=' :: r2 =>
      let ws2 := r2.takeWhile isSpaceChar
      let r3 := r2.dropWhile isSpaceChar
      if ws2 = [] then none else lazyCaptureSemi r3
    | _ => none

/-- One attempt of pattern `(\w+)\s+=\s+(.*?);` anchored at the head of `cs`;
returns ((identifier, value), remainder after the match). -/
def matchVAt (cs : List Char) : Option ((List Char × List Char) × List Char) :=
  let w := cs.takeWhile isWordChar
  let r1 := cs.dropWhile isWordChar
  if w = [] then none
  else
    match matchAssignTail r1 with
    | some (cap, rest) => some ((w, cap), rest)
    | none => none

def litItemDot : List Char := "Item.".data
def litTileDot : List Char := "Tile.".data

/-- Tail `\w+\s+=\s+(.*?);` after the `Item.`/`Tile.` literal. -/
def matchCTail (cs : List Char) : Option (List Char × List Char) :=
  let w := cs.takeWhile isWordChar
  let r1 := cs.dropWhile isWordChar
  if w = [] then none else matchAssignTail r1

/-- One attempt of pattern `(?:Item|Tile)\.\w+\s+=\s+(.*?);` anchored at the
head of `cs`. -/
def matchCAt (cs : List Char) : Option (List Char × List Char) :=
  if leadsWith litItemDot cs then matchCTail (cs.drop litItemDot.length)
  else if leadsWith litTileDot cs then matchCTail (cs.drop litTileDot.length)
  else none

/-- `re.findall` loop for the value pattern: try each start position left to
right, continue after the end of each (non-empty) match.  The fuel is the
length of the text; every step consumes at least one character. -/
def findallVAux : Nat → List Char → List (List Char × List Char)
  | 0, _ => []
  | _ + 1, [] => []
  | fuel + 1, c :: rest =>
    match matchVAt (c :: rest) with
    | some (g, after) => g :: findallVAux fuel after
    | none => findallVAux fuel rest

/-- `re.findall(r'(\w+)\s+=\s+(.*?);', content)`. -/
def findallV (cs : List Char) : List (List Char × List Char) :=
  findallVAux cs.length cs

/-- `re.findall` loop for the call pattern. -/
def findallCAux : Nat → List Char → List (List Char)
  | 0, _ => []
  | _ + 1, [] => []
  | fuel + 1, c :: rest =>
    match matchCAt (c :: rest) with
    | some (cap, after) => cap :: findallCAux fuel after
    | none => findallCAux fuel rest

/-- `re.findall(r'(?:Item|Tile)\.\w+\s+=\s+(.*?);', content)`. -/
def findallC (cs : List Char) : List (List Char) :=
  findallCAux cs.length cs

/-- `re.search` for a pattern `<literal>\s+=\s+(.*?);`: try every start
position left to right, return the first capture. -/
def searchLitAssign (lit : List Char) : List Char → Option (List Char)
  | [] => none
  | c :: rest =>
    if leadsWith lit (c :: rest) then
      match matchAssignTail ((c :: rest).drop lit.length) with
      | some (cap, _) => some cap
      | none => searchLitAssign lit rest
    else searchLitAssign lit rest

def litCloseMapEntry : List Char := "));".data

/-- Tail `(.*?)\)\);` of the map-entry pattern. -/
def lazyCaptureCloseMapEntry : List Char → Option (List Char)
  | [] => none
  | c :: rest =>
    if leadsWith litCloseMapEntry (c :: rest) then some []
    else if c = '\n' then none
    else
      match lazyCaptureCloseMapEntry rest with
      | some cap => some (c :: cap)
      | none => none

def litMapEntry : List Char := "AddMapEntry(new Color(".data

/-- `re.search(r'AddMapEntry\(new Color\((.*?)\)\);', content)`. -/
def searchMapEntry : List Char → Option (List Char)
  | [] => none
  | c :: rest =>
    if leadsWith litMapEntry (c :: rest) then
      match lazyCaptureCloseMapEntry ((c :: rest).drop litMapEntry.length) with
      | some cap => some cap
      | none => searchMapEntry rest
    else searchMapEntry rest

/-! ### `get_replaced_values` -/

/-- The `FileTypes` constants of Main.py. -/
inductive FileTypes where
  | TILE
  | ITEM
  | NPC
  | PROJECTILE
  | DUST
  | BUFF
deriving DecidableEq

/-- Key membership in a Python dict modelled as an association list. -/
def hasKey : List (String × Option String) → String → Bool
  | [], _ => false
  | kv :: rest, k => if kv.1 = k then true else hasKey rest k

/-- `d[k] = v` on a Python dict: update the existing entry in place, else
append a new one (dicts preserve insertion order). -/
def dictInsert (d : List (String × Option String)) (k : String) (v : Option String) :
    List (String × Option String) :=
  if hasKey d k then d.map (fun kv => if kv.1 = k then (k, v) else kv)
  else d ++ [(k, v)]

/-- `d.get(k)`-style lookup (first entry with the key). -/
def dictFind : List (String × Option String) → String → Option (Option String)
  | [], _ => none
  | kv :: rest, k => if kv.1 = k then some kv.2 else dictFind rest k

/-- Python `str.upper` over ASCII. -/
def pyUpper (w : List Char) : List Char := w.map Char.toUpper

/-- The key `f"<{key.upper()}>"` built in the item branch. -/
def mkItemKey (w : List Char) : String := String.mk ('<' :: (pyUpper w ++ ['>']))

/-- The item branch of `get_replaced_values`:
`for (key, _), value in zip(matchesV, matchesC): replaced_values[f"<{key.upper()}>"] = value`.
(The branch also computes `matchPlaceable` from the `DefaultToPlaceableTile`
pattern, but that local is never used and does not affect the result.) -/
def itemDict (content : List Char) : List (String × Option String) :=
  (List.zip (findallV content) (findallC content)).foldl
    (fun d p => dictInsert d (mkItemKey p.1.1) (some (String.mk p.2))) []

def litSolid : List Char := "Main.tileSolid[Type]".data
def litMergeDirt : List Char := "Main.tileMergeDirt[Type]".data
def litBlockLight : List Char := "Main.tileBlockLight[Type]".data
def litDustType : List Char := "DustType".data

/-- Python `str.split(',')`: split on every comma, keeping empty pieces
(`''.split(',') = ['']`). -/
def splitComma : List Char → List (List Char)
  | [] => [[]]
  | c :: rest =>
    if c = ',' then [] :: splitComma rest
    else
      match splitComma rest with
      | cur :: parts => (c :: cur) :: parts
      | [] => [[c]]

/-- The color triple of the tile branch: `match_map.group(1).split(',')`
unpacked as `colors[:3]` when it has at least three elements, else `None`
for all three. -/
def tileColors (content : List Char) : Option (String × String × String) :=
  match searchMapEntry content with
  | some cap =>
    match splitComma cap with
    | r :: g :: b :: _ => some (String.mk r, String.mk g, String.mk b)
    | _ => none
  | none => none

/-- The tile branch of `get_replaced_values`: the dict literal of Main.py
lines 130-138, in its insertion order. -/
def tileDict (content : List Char) : List (String × Option String) :=
  [("solid", (searchLitAssign litSolid content).map String.mk),
   ("merge_dirt", (searchLitAssign litMergeDirt content).map String.mk),
   ("block_light", (searchLitAssign litBlockLight content).map String.mk),
   ("dust_type", (searchLitAssign litDustType content).map String.mk),
   ("map_color_r", (tileColors content).map (fun c => c.1)),
   ("map_color_g", (tileColors content).map (fun c => c.2.1)),
   ("map_color_b", (tileColors content).map (fun c => c.2.2))]

/-- `get_replaced_values` after a successful read: `replaced_values` starts
out `{}` and is only filled by the `ITEM` and `TILE` branches. -/
def get_replaced_values_content (content : List Char) :
    FileTypes → List (String × Option String)
  | FileTypes.ITEM => itemDict content
  | FileTypes.TILE => tileDict content
  | _ => []

/-- `get_replaced_values(file_path, file_type)`.  The attempted read is passed
in as `file` (`none` models `open` raising `IOError`); the second component of
the result is the list of messages printed.  On a failed read the function
prints a diagnostic and returns the empty dict. -/
def get_replaced_values (file_path : String) (file : Option (List Char))
    (file_type : FileTypes) : List (String × Option String) × List String :=
  match file with
  | none => ([], ["Error opening " ++ file_path])
  | some content => (get_replaced_values_content content file_type, [])

/-! ### File enumeration -/

/-- The slice of the `os` module that `list_files_with_extension` and
`list_folders` consult: `os.path.exists`, `os.listdir` (where `none` models
the `FileNotFoundError`/`OSError` raised on a missing directory), and
`os.path.isdir`. -/
structure OsModel where
  pathExists : String → Bool
  listdir : String → Option (List String)
  isdir : String → Bool

/-- `os.path.join` for the POSIX separator. -/
def joinPath (a b : String) : String := a ++ "/" ++ b

/-- Python `file[:-n]` (note `file[:-0]` is the empty string). -/
def pyDropSuffix (f : String) (n : Nat) : String :=
  if n = 0 then "" else f.dropRight n

/-- `list_files_with_extension(directory, extension)`; `Except.error` models
an uncaught exception escaping the function. -/
def list_files_with_extension (os : OsModel) (directory extension : String) :
    Except String (List String) :=
  if os.pathExists directory = false then Except.ok []
  else
    match os.listdir directory with
    | none => Except.error ("OSError: listdir " ++ directory)
    | some files =>
      Except.ok ((files.filter (fun f => f.endsWith extension)).map
        (fun f => pyDropSuffix f extension.length))

/-- `list_folders(path)`: calls `os.listdir(path)` with no existence check,
so a missing path propagates the `FileNotFoundError`. -/
def list_folders (os : OsModel) (path : String) : Except String (List String) :=
  match os.listdir path with
  | none => Except.error ("FileNotFoundError: " ++ path)
  | some items => Except.ok (items.filter (fun item => os.isdir (joinPath path item)))

/-! ### Template rendering -/

/-- A value in a replacement mapping: either a plain string or a callable
(thunk) evaluated at render time, as in the `callable(value)` test of
`create_file_from_template`. -/
inductive TValue where
  | str (s : List Char)
  | thunk (f : Unit → List Char)

/-- `value() if callable(value) else str(value)`. -/
def resolveValue : TValue → List Char
  | TValue.str s => s
  | TValue.thunk f => f ()

/-- Python `str.replace` scan for a non-empty pattern: non-overlapping
replacement, left to right.  Fuel is the length of the scanned string; each
step consumes at least one character. -/
def pyReplaceAux (old new : List Char) : Nat → List Char → List Char
  | _, [] => []
  | 0, s => s
  | fuel + 1, c :: rest =>
    if old ≠ [] ∧ leadsWith old (c :: rest) = true then
      new ++ pyReplaceAux old new fuel ((c :: rest).drop old.length)
    else
      c :: pyReplaceAux old new fuel rest

def pyReplaceCore (old new s : List Char) : List Char :=
  pyReplaceAux old new s.length s

/-- Python `s.replace(old, new)`.  For an empty `old`, Python inserts `new`
at every position boundary. -/
def pyReplace (s old new : List Char) : List Char :=
  if old = [] then new ++ s.flatMap (fun c => c :: new)
  else pyReplaceCore old new s

/-- The replacement loop of `create_file_from_template` (Main.py 153-159):
`template_content = template_content.replace(key, replace)` over the mapping
in order. -/
def render (t : List Char) (repl : List (List Char × TValue)) : List Char :=
  repl.foldl (fun acc kv => pyReplace acc kv.1 (resolveValue kv.2)) t

/-! ### `create_file_from_template` -/

/-- The file-system actions performed by `create_file_from_template`. -/
inductive FsOp where
  | makedirs (dir : String)
  | writeFile (path : String) (content : List Char)
deriving DecidableEq

/-- `create_file_from_template(template_path, new_file_path, replacements, ...)`.
The attempted template read is passed in (`none` models `IOError` on open);
`dirOf` models `os.path.dirname`; `writeOk = false` models the write raising
`IOError` (caught and reported).  The result is the list of file-system
operations attempted and the list of messages printed; no exception escapes
in either case. -/
def create_file_from_template (template : Option (List Char))
    (template_path new_file_path : String) (replacements : List (List Char × TValue))
    (dirOf : String → String) (writeOk : Bool) : List FsOp × List String :=
  match template with
  | none => ([], ["Error reading template " ++ template_path])
  | some template_content =>
    let rendered := render template_content replacements
    ([FsOp.makedirs (dirOf new_file_path), FsOp.writeFile new_file_path rendered],
     if writeOk then ["Created file: " ++ new_file_path]
     else ["Error writing file " ++ new_file_path])

/-! ### Placeholders

The spec's glossary defines a placeholder as an angle-bracket token in a
template: `<` followed by a non-empty run of word characters followed by `>`.
-/

/-- A non-empty run of word characters closed by `>`. -/
def tailWordsGt : List Char → Bool
  | [] => false
  | [c] => c = '>'
  | c :: c2 :: rest => isWordChar c && tailWordsGt (c2 :: rest)

/-- Well-formed angle-bracket placeholder token: `<`, one or more word
characters, `>`. -/
def isPlaceholder : List Char → Bool
  | c :: c2 :: rest => c = '<' && (isWordChar c2 && tailWordsGt (c2 :: rest))
  | _ => false

def wfPlaceholder (p : List Char) : Prop := isPlaceholder p = true

instance (p : List Char) : Decidable (wfPlaceholder p) :=
  inferInstanceAs (Decidable (isPlaceholder p = true))

/-! ### Template decompositions

For the round-trip property a template is presented as a list of segments:
literal chunks and placeholder occurrences.  `flattenSegs` recovers the
template text and `substSegs` is the ideal simultaneous substitution that the
spec's round-trip sentence describes. -/

inductive Seg where
  | lit (l : List Char)
  | key (k : List Char)
deriving DecidableEq

def segContent : Seg → List Char
  | Seg.lit l => l
  | Seg.key k => k

def flattenSegs (segs : List Seg) : List Char := segs.flatMap segContent

def segTokens : List Seg → List (List Char)
  | [] => []
  | Seg.lit _ :: rest => segTokens rest
  | Seg.key k :: rest => k :: segTokens rest

/-- A good segment: a literal chunk containing no `<`, or a well-formed
placeholder. -/
def goodSeg : Seg → Prop
  | Seg.lit l => '<' ∉ l
  | Seg.key k => wfPlaceholder k

instance : (s : Seg) → Decidable (goodSeg s)
  | Seg.lit l => inferInstanceAs (Decidable ('<' ∉ l))
  | Seg.key k => inferInstanceAs (Decidable (wfPlaceholder k))

/-- Literal chunks contain no `<` and every placeholder segment is well
formed. -/
def goodSegs (segs : List Seg) : Prop := ∀ s ∈ segs, goodSeg s

instance (segs : List Seg) : Decidable (goodSegs segs) :=
  inferInstanceAs (Decidable (∀ s ∈ segs, goodSeg s))

def lookupKey (repl : List (List Char × List Char)) (k : List Char) : Option (List Char) :=
  match repl with
  | [] => none
  | kv :: rest => if kv.1 = k then some kv.2 else lookupKey rest k

/-- Ideal simultaneous substitution over a decomposed template: each
placeholder segment is replaced (in place) by its mapped value, literal
chunks are kept verbatim. -/
def substSegs (repl : List (List Char × List Char)) : List Seg → List Char
  | [] => []
  | Seg.lit l :: rest => l ++ substSegs repl rest
  | Seg.key k :: rest => ((lookupKey repl k).getD k) ++ substSegs repl rest

/-- A replacement mapping with its values resolved (thunks called). -/
def resolveRepl (repl : List (List Char × TValue)) : List (List Char × List Char) :=
  repl.map (fun kv => (kv.1, resolveValue kv.2))

/-- Number of positions of `s` at which (a non-empty) `p` starts. -/
def countOcc (p : List Char) : List Char → Nat
  | [] => 0
  | c :: rest => (if leadsWith p (c :: rest) = true then 1 else 0) + countOcc p rest

/-! ### Concrete sample inputs used by witnesses and counterexamples -/

/-- An `os` oracle on which no path exists. -/
def osMissing : OsModel where
  pathExists := fun _ => false
  listdir := fun _ => none
  isdir := fun _ => false

/-- Item-file text whose value pattern matches four times with a repeated
identifier, while the call pattern matches twice. -/
def itemClash : List Char := "a = 1; a = 2; Item.P = 3; Item.Q = 4;".data

/-- Item-file text with distinct identifiers. -/
def itemSample : List Char := "Item.damage = 50; Item.useTime = 20;".data

/-- Tile-file text whose map-entry color call has only two components. -/
def tileShortColor : List Char := "AddMapEntry(new Color(1,2));".data

/-- The spec's round-trip example template, decomposed. -/
def segsExample : List Seg :=
  [Seg.lit "Name: ".data, Seg.key "<NAME>".data,
   Seg.lit ", Damage: ".data, Seg.key "<DAMAGE>".data]

/-- The spec's round-trip example replacements. -/
def replExample : List (List Char × TValue) :=
  [("<NAME>".data, TValue.str "Sword".data),
   ("<DAMAGE>".data, TValue.str "10".data)]

/-! ## Theorems -/

/-! ### Substring basics -/

theorem leadsWith_iff (p s : List Char) : leadsWith p s = true ↔ ∃ t, s = p ++ t := by
  induction p generalizing s with
  | nil => simp [leadsWith]
  | cons c p ih =>
    cases s with
    | nil => simp [leadsWith]
    | cons d s =>
      simp only [leadsWith, Bool.and_eq_true, decide_eq_true_eq, ih]
      constructor
      · rintro ⟨rfl, t, rfl⟩; exact ⟨t, rfl⟩
      · rintro ⟨t, h⟩
        cases h
        exact ⟨rfl, t, rfl⟩

theorem leadsWith_append (p t : List Char) : leadsWith p (p ++ t) = true :=
  (leadsWith_iff p (p ++ t)).2 ⟨t, rfl⟩

theorem occursB_scan (p s : List Char) :
    occursB p s = true ↔ ∃ i, leadsWith p (s.drop i) = true := by
  induction s with
  | nil =>
    simp only [occursB]
    constructor
    · intro h; exact ⟨0, h⟩
    · rintro ⟨i, h⟩; simpa using h
  | cons c rest ih =>
    simp only [occursB, Bool.or_eq_true, ih]
    constructor
    · rintro (h | ⟨i, h⟩)
      · exact ⟨0, h⟩
      · exact ⟨i + 1, h⟩
    · rintro ⟨i, h⟩
      cases i with
      | zero => exact Or.inl h
      | succ i => exact Or.inr ⟨i, h⟩

theorem occurs_iff (p s : List Char) : occurs p s ↔ ∃ a b, s = a ++ p ++ b := by
  show occursB p s = true ↔ _
  rw [occursB_scan]
  constructor
  · rintro ⟨i, h⟩
    rcases (leadsWith_iff _ _).1 h with ⟨t, ht⟩
    exact ⟨s.take i, t, by rw [List.append_assoc, ← ht, List.take_append_drop]⟩
  · rintro ⟨a, b, rfl⟩
    refine ⟨a.length, ?_⟩
    rw [List.append_assoc, List.drop_left]
    exact leadsWith_append p b

theorem occurs_middle (a p b : List Char) : occurs p (a ++ p ++ b) :=
  (occurs_iff p _).2 ⟨a, b, rfl⟩

theorem occurs_append_right (a p b : List Char) (h : occurs p b) : occurs p (a ++ b) := by
  rcases (occurs_iff p b).1 h with ⟨u, v, rfl⟩
  exact (occurs_iff p _).2 ⟨a ++ u, v, by simp⟩

theorem occurs_cons (c : Char) (p s : List Char) (h : occurs p s) : occurs p (c :: s) :=
  occurs_append_right [c] p s h

theorem not_occurs_nil (p : List Char) (hp : p ≠ []) : ¬ occurs p [] := by
  intro h
  rcases (occurs_iff p []).1 h with ⟨a, b, hab⟩
  have := congrArg List.length hab
  simp at this
  exact hp (List.eq_nil_of_length_eq_zero (by omega))

/-! ### `str.replace` scan -/

/-- The fuel of `pyReplaceAux` is irrelevant once it covers the length of the
scanned string. -/
theorem pyReplaceAux_fuel (old new : List Char) :
    ∀ n m s, s.length ≤ n → s.length ≤ m →
      pyReplaceAux old new n s = pyReplaceAux old new m s := by
  intro n
  induction n with
  | zero =>
    intro m s hn _
    have hs : s = [] := List.eq_nil_of_length_eq_zero (Nat.le_zero.1 hn)
    subst hs
    cases m <;> rfl
  | succ n ih =>
    intro m s hn hm
    cases s with
    | nil => cases m <;> rfl
    | cons c rest =>
      cases m with
      | zero => exact absurd hm (by simp)
      | succ m =>
        simp only [pyReplaceAux]
        simp only [List.length_cons] at hn hm
        by_cases h : old ≠ [] ∧ leadsWith old (c :: rest) = true
        · rw [if_pos h, if_pos h]
          have h1 : 1 ≤ old.length := by
            cases old with
            | nil => exact absurd rfl h.1
            | cons _ _ => simp
          have hlen : ((c :: rest).drop old.length).length ≤ n := by
            rw [List.length_drop]
            simp only [List.length_cons]
            omega
          have hlen' : ((c :: rest).drop old.length).length ≤ m := by
            rw [List.length_drop]
            simp only [List.length_cons]
            omega
          rw [ih m _ hlen hlen']
        · rw [if_neg h, if_neg h]
          rw [ih m rest (by omega) (by omega)]

theorem pyReplaceCore_nil (old new : List Char) : pyReplaceCore old new [] = [] := rfl

/-- One-step unfolding of the `str.replace` scan. -/
theorem pyReplaceCore_cons (old new : List Char) (c : Char) (rest : List Char) :
    pyReplaceCore old new (c :: rest) =
      if old ≠ [] ∧ leadsWith old (c :: rest) = true then
        new ++ pyReplaceCore old new ((c :: rest).drop old.length)
      else
        c :: pyReplaceCore old new rest := by
  show pyReplaceAux old new (rest.length + 1) (c :: rest) = _
  simp only [pyReplaceAux]
  by_cases h : old ≠ [] ∧ leadsWith old (c :: rest) = true
  · rw [if_pos h, if_pos h]
    have h1 : 1 ≤ old.length := by
      cases old with
      | nil => exact absurd rfl h.1
      | cons _ _ => simp
    have hle : ((c :: rest).drop old.length).length ≤ rest.length := by
      rw [List.length_drop]
      simp only [List.length_cons]
      omega
    rw [pyReplaceAux_fuel old new rest.length ((c :: rest).drop old.length).length _ hle
      (Nat.le_refl _)]
    rfl
  · rw [if_neg h, if_neg h]
    rfl

/-! ### Python dict lemmas -/

theorem hasKey_eq_false_iff (d : List (String × Option String)) (k : String) :
    hasKey d k = false ↔ ∀ kv ∈ d, kv.1 ≠ k := by
  induction d with
  | nil => simp [hasKey]
  | cons kv rest ih =>
    by_cases h : kv.1 = k
    · simp [hasKey, h]
    · simp [hasKey, h, ih]

theorem dictInsert_fresh (d : List (String × Option String)) (k : String)
    (v : Option String) (h : hasKey d k = false) : dictInsert d k v = d ++ [(k, v)] := by
  simp [dictInsert, h]

/-- Folding `d[k] = v` over pairs with pairwise-fresh keys appends them all. -/
theorem foldl_dictInsert_fresh :
    ∀ (ps : List (String × Option String)) (d : List (String × Option String)),
      (ps.map Prod.fst).Nodup →
      (∀ kv ∈ d, ∀ q ∈ ps, kv.1 ≠ q.1) →
      ps.foldl (fun acc q => dictInsert acc q.1 q.2) d = d ++ ps := by
  intro ps
  induction ps with
  | nil => intro d _ _; simp
  | cons q rest ih =>
    intro d hnd hdisj
    simp only [List.foldl_cons]
    have hk : hasKey d q.1 = false :=
      (hasKey_eq_false_iff d q.1).2 (fun kv hkv => hdisj kv hkv q (List.mem_cons_self q rest))
    rw [dictInsert_fresh d q.1 q.2 hk]
    have hnd' : (rest.map Prod.fst).Nodup := (List.nodup_cons.1 hnd).2
    have hfresh : q.1 ∉ rest.map Prod.fst := (List.nodup_cons.1 hnd).1
    have hdisj' : ∀ kv ∈ d ++ [(q.1, q.2)], ∀ p ∈ rest, kv.1 ≠ p.1 := by
      intro kv hkv p hp
      rcases List.mem_append.1 hkv with hkv | hkv
      · exact hdisj kv hkv p (List.mem_cons_of_mem q hp)
      · have : kv = (q.1, q.2) := by simpa using hkv
        subst this
        intro hcontra
        exact hfresh (hcontra ▸ List.mem_map_of_mem Prod.fst hp)
    rw [ih (d ++ [(q.1, q.2)]) hnd' hdisj']
    simp

theorem dictFind_map_key (d : List (String × Option String)) (k : String) :
    ∀ v, dictFind d k = some v → hasKey d k = true := by
  induction d with
  | nil => intro v h; simp [dictFind] at h
  | cons kv rest ih =>
    intro v h
    by_cases hk : kv.1 = k
    · simp [hasKey, hk]
    · simp only [dictFind, if_neg hk] at h
      simp [hasKey, hk, ih v h]

/-! ### The tile color triple -/

theorem tileColors_eq_none_iff (content : List Char) :
    tileColors content = none ↔
      (searchMapEntry content = none ∨
        ∃ cap, searchMapEntry content = some cap ∧ (splitComma cap).length < 3) := by
  unfold tileColors
  cases hm : searchMapEntry content with
  | none => simp
  | some cap =>
    rcases hs : splitComma cap with _ | ⟨r, _ | ⟨g, _ | ⟨b, t⟩⟩⟩ <;>
      simp [hs, hm]

/-! ### Claims about extraction and enumeration -/

/-- C7: `get_replaced_values` lets no exception escape: when opening the file
fails, it prints a diagnostic message and returns the empty mapping (the
embedding is a total function, so no other outcome is possible). -/
theorem c7_open_failure_yields_empty (file_path : String) (file_type : FileTypes) :
    get_replaced_values file_path none file_type =
      ([], ["Error opening " ++ file_path]) := rfl

/-- C10: for a successfully read file, `get_replaced_values` with any file
type other than `ITEM` and `TILE` returns the empty mapping (and no
message) rather than failing. -/
theorem c10_other_file_types_empty (file_path : String) (content : List Char)
    (file_type : FileTypes) (h1 : file_type ≠ FileTypes.ITEM)
    (h2 : file_type ≠ FileTypes.TILE) :
    get_replaced_values file_path (some content) file_type = ([], []) := by
  cases file_type with
  | ITEM => exact absurd rfl h1
  | TILE => exact absurd rfl h2
  | NPC => rfl
  | PROJECTILE => rfl
  | DUST => rfl
  | BUFF => rfl

/-- Witness for C10 at the `NPC` file type and a concrete file text. -/
theorem c10_other_file_types_empty_witness :
    get_replaced_values "Npcs/Guide.cs" (some "Item.damage = 50;".data) FileTypes.NPC =
      ([], []) :=
  c10_other_file_types_empty "Npcs/Guide.cs" "Item.damage = 50;".data FileTypes.NPC
    (by decide) (by decide)

/-- C2 counterexample: on a file system with no existing paths,
`list_folders` raises (`os.listdir` is called without an existence check and
its `FileNotFoundError` propagates), contradicting the claim that it returns
an empty sequence rather than failing. -/
theorem c2_list_folders_raises :
    osMissing.pathExists "/mods" = false ∧
    list_folders osMissing "/mods" = Except.error ("FileNotFoundError: " ++ "/mods") :=
  ⟨rfl, rfl⟩

/-- C2 (amended): for a non-existent directory `list_files_with_extension`
returns the empty list rather than raising, but `list_folders` propagates the
`os.listdir` error when the path does not exist. -/
theorem c2_enumerators (os : OsModel) (directory extension path : String) :
    (os.pathExists directory = false →
      list_files_with_extension os directory extension = Except.ok []) ∧
    (os.listdir path = none →
      ∃ e, list_folders os path = Except.error e) := by
  constructor
  · intro h
    simp [list_files_with_extension, h]
  · intro h
    exact ⟨"FileNotFoundError: " ++ path, by simp [list_folders, h]⟩

/-- Witness for C2 on the all-missing file system. -/
theorem c2_enumerators_witness :
    list_files_with_extension osMissing "/mods" ".cs" = Except.ok [] ∧
    ∃ e, list_folders osMissing "/mods" = Except.error e :=
  ⟨(c2_enumerators osMissing "/mods" ".cs" "/mods").1 rfl,
   (c2_enumerators osMissing "/mods" ".cs" "/mods").2 rfl⟩

/-- C5: when the map-entry color call is absent, or its captured argument
list splits on commas into fewer than three components, all three color keys
of the tile mapping are present with value `None`. -/
theorem c5_short_color_triple (file_path : String) (content : List Char)
    (h : searchMapEntry content = none ∨
      ∃ cap, searchMapEntry content = some cap ∧ (splitComma cap).length < 3) :
    dictFind (get_replaced_values file_path (some content) FileTypes.TILE).1
      "map_color_r" = some none ∧
    dictFind (get_replaced_values file_path (some content) FileTypes.TILE).1
      "map_color_g" = some none ∧
    dictFind (get_replaced_values file_path (some content) FileTypes.TILE).1
      "map_color_b" = some none := by
  have hc : tileColors content = none := (tileColors_eq_none_iff content).2 h
  refine ⟨?_, ?_, ?_⟩ <;>
    simp [get_replaced_values, get_replaced_values_content, tileDict, dictFind, hc]

/-- Witness for C5 at a two-component color call. -/
theorem c5_short_color_triple_witness :
    dictFind (get_replaced_values "Tiles/T.cs" (some tileShortColor) FileTypes.TILE).1
      "map_color_r" = some none ∧
    dictFind (get_replaced_values "Tiles/T.cs" (some tileShortColor) FileTypes.TILE).1
      "map_color_g" = some none ∧
    dictFind (get_replaced_values "Tiles/T.cs" (some tileShortColor) FileTypes.TILE).1
      "map_color_b" = some none :=
  c5_short_color_triple "Tiles/T.cs" tileShortColor
    (Or.inr ⟨"1,2".data, by decide, by decide⟩)

/-- C9: for every successfully read tile file, the mapping has exactly the
seven keys `solid`, `merge_dirt`, `block_light`, `dust_type`, `map_color_r`,
`map_color_g`, `map_color_b` in that order, each present, and a key's value
is `None` exactly when its regex did not match (for the color keys: when the
map-entry pattern did not match or its capture splits into fewer than three
comma-separated components). -/
theorem c9_tile_mapping_invariant (file_path : String) (content : List Char) :
    ((get_replaced_values file_path (some content) FileTypes.TILE).1).map Prod.fst =
      ["solid", "merge_dirt", "block_light", "dust_type",
       "map_color_r", "map_color_g", "map_color_b"] ∧
    (dictFind (get_replaced_values file_path (some content) FileTypes.TILE).1 "solid" = some none ↔
      searchLitAssign litSolid content = none) ∧
    (dictFind (get_replaced_values file_path (some content) FileTypes.TILE).1 "merge_dirt" = some none ↔
      searchLitAssign litMergeDirt content = none) ∧
    (dictFind (get_replaced_values file_path (some content) FileTypes.TILE).1 "block_light" = some none ↔
      searchLitAssign litBlockLight content = none) ∧
    (dictFind (get_replaced_values file_path (some content) FileTypes.TILE).1 "dust_type" = some none ↔
      searchLitAssign litDustType content = none) ∧
    (dictFind (get_replaced_values file_path (some content) FileTypes.TILE).1 "map_color_r" = some none ↔
      (searchMapEntry content = none ∨
        ∃ cap, searchMapEntry content = some cap ∧ (splitComma cap).length < 3)) ∧
    (dictFind (get_replaced_values file_path (some content) FileTypes.TILE).1 "map_color_g" = some none ↔
      (searchMapEntry content = none ∨
        ∃ cap, searchMapEntry content = some cap ∧ (splitComma cap).length < 3)) ∧
    (dictFind (get_replaced_values file_path (some content) FileTypes.TILE).1 "map_color_b" = some none ↔
      (searchMapEntry content = none ∨
        ∃ cap, searchMapEntry content = some cap ∧ (splitComma cap).length < 3)) := by
  rw [← tileColors_eq_none_iff]
  refine ⟨rfl, ?_, ?_, ?_, ?_, ?_, ?_, ?_⟩ <;>
    simp [get_replaced_values, get_replaced_values_content, tileDict, dictFind,
      Option.map_eq_none']

/-- C8: `create_file_from_template` first ensures the target's parent
directory exists (`os.makedirs(..., exist_ok=True)`), then writes the
rendered output to the target path; a failing write produces an error
message instead of an exception (the embedding is total). -/
theorem c8_write_behaviour (template_content : List Char)
    (template_path new_file_path : String) (replacements : List (List Char × TValue))
    (dirOf : String → String) (writeOk : Bool) :
    (create_file_from_template (some template_content) template_path new_file_path
        replacements dirOf writeOk).1 =
      [FsOp.makedirs (dirOf new_file_path),
       FsOp.writeFile new_file_path (render template_content replacements)] ∧
    (create_file_from_template (some template_content) template_path new_file_path
        replacements dirOf false).2 =
      ["Error writing file " ++ new_file_path] :=
  ⟨rfl, rfl⟩

/-- C4: rendering a template with the empty replacement mapping is the
identity. -/
theorem c4_render_empty_mapping (t : List Char) : render t [] = t := rfl

/-- C1 counterexample: on an item file whose value pattern matches four times
(with the identifier `a` twice) and whose call pattern matches twice, the
mapping has one key, not `min(4, 2) = 2`: the repeated key `<A>` is
overwritten in place. -/
theorem c1_clash_loses_keys :
    min (findallV itemClash).length (findallC itemClash).length = 2 ∧
    ((get_replaced_values "Items/A.cs" (some itemClash) FileTypes.ITEM).1).length = 1 := by
  decide

/-- C1 (amended): when the upper-cased bracketed identifiers of the first
`min(N, M)` value-pattern matches are pairwise distinct, the item mapping is
exactly the positional pairing - `min(N, M)` keys, the i-th key being the
i-th value-pattern identifier upper-cased in angle brackets and its value the
i-th call-pattern right-hand side.  (With duplicate identifiers later pairs
overwrite earlier ones in place and the mapping is smaller.) -/
theorem c1_item_positional_pairing (file_path : String) (content : List Char)
    (h : (((findallV content).zip (findallC content)).map
      (fun p => mkItemKey p.1.1)).Nodup) :
    (get_replaced_values file_path (some content) FileTypes.ITEM).1 =
      ((findallV content).zip (findallC content)).map
        (fun p => (mkItemKey p.1.1, some (String.mk p.2))) ∧
    ((get_replaced_values file_path (some content) FileTypes.ITEM).1).length =
      min (findallV content).length (findallC content).length := by
  have hnodup : ((((findallV content).zip (findallC content)).map
      (fun p => (mkItemKey p.1.1, some (String.mk p.2)))).map Prod.fst).Nodup := by
    rw [List.map_map]
    exact h
  have h2 := foldl_dictInsert_fresh
    (((findallV content).zip (findallC content)).map
      (fun p => (mkItemKey p.1.1, some (String.mk p.2)))) [] hnodup
    (by intro kv hkv; simp at hkv)
  have h3 : itemDict content =
      ((findallV content).zip (findallC content)).map
        (fun p => (mkItemKey p.1.1, some (String.mk p.2))) := by
    unfold itemDict
    simp only [List.nil_append] at h2
    rw [← h2, List.foldl_map]
  have h4 : (get_replaced_values file_path (some content) FileTypes.ITEM).1 =
      itemDict content := rfl
  rw [h4]
  exact ⟨h3, by rw [h3, List.length_map, List.length_zip]⟩

/-- Witness for C1 at a two-assignment item file with distinct identifiers. -/
theorem c1_item_positional_pairing_witness :
    (get_replaced_values "Items/Sword.cs" (some itemSample) FileTypes.ITEM).1 =
      ((findallV itemSample).zip (findallC itemSample)).map
        (fun p => (mkItemKey p.1.1, some (String.mk p.2))) ∧
    ((get_replaced_values "Items/Sword.cs" (some itemSample) FileTypes.ITEM).1).length =
      min (findallV itemSample).length (findallC itemSample).length :=
  c1_item_positional_pairing "Items/Sword.cs" itemSample (by decide)

/-! ### Placeholder structure -/

theorem tailWordsGt_iff (l : List Char) :
    tailWordsGt l = true ↔
      ∃ w, (∀ c ∈ w, isWordChar c = true) ∧ l = w ++ ['>'] := by
  induction l with
  | nil =>
    simp only [tailWordsGt]
    constructor
    · intro h; cases h
    · rintro ⟨w, _, hw⟩
      exact absurd hw.symm (by simp)
  | cons c rest ih =>
    cases rest with
    | nil =>
      simp only [tailWordsGt, decide_eq_true_eq]
      constructor
      · intro h
        exact ⟨[], by simp, by simp [h]⟩
      · rintro ⟨w, _, hw⟩
        cases w with
        | nil => simpa using hw
        | cons a as =>
          have := congrArg List.length hw
          simp at this
    | cons c2 rest2 =>
      simp only [tailWordsGt, Bool.and_eq_true, ih]
      constructor
      · rintro ⟨hc, w, hw, heq⟩
        refine ⟨c :: w, ?_, by simp [heq]⟩
        intro d hd
        rcases List.mem_cons.1 hd with rfl | hd
        · exact hc
        · exact hw d hd
      · rintro ⟨w, hw, heq⟩
        cases w with
        | nil => simp at heq
        | cons w0 w' =>
          simp only [List.cons_append, List.cons.injEq] at heq
          refine ⟨heq.1 ▸ hw w0 (List.mem_cons_self w0 w'), w', ?_, heq.2⟩
          intro d hd
          exact hw d (List.mem_cons_of_mem w0 hd)

theorem wfPlaceholder_iff (p : List Char) :
    wfPlaceholder p ↔
      ∃ w, w ≠ [] ∧ (∀ c ∈ w, isWordChar c = true) ∧ p = '<' :: (w ++ ['>']) := by
  show isPlaceholder p = true ↔ _
  cases p with
  | nil =>
    simp only [isPlaceholder]
    constructor
    · intro h; cases h
    · rintro ⟨w, _, _, hw⟩; cases hw
  | cons c p' =>
    cases p' with
    | nil =>
      simp only [isPlaceholder]
      constructor
      · intro h; cases h
      · rintro ⟨w, hne, _, hw⟩
        have := congrArg List.length hw
        simp at this
    | cons c2 rest =>
      simp only [isPlaceholder, Bool.and_eq_true, decide_eq_true_eq, tailWordsGt_iff]
      constructor
      · rintro ⟨rfl, hc2, w, hw, heq⟩
        cases w with
        | nil =>
          simp only [List.nil_append] at heq
          cases heq
          simp [isWordChar] at hc2
        | cons w0 w' =>
          simp only [List.cons_append, List.cons.injEq] at heq
          exact ⟨w0 :: w', by simp, hw, by simp [heq.1, heq.2]⟩
      · rintro ⟨w, hne, hw, heq⟩
        cases w with
        | nil => exact absurd rfl hne
        | cons w0 w' =>
          simp only [List.cons_append, List.cons.injEq] at heq
          obtain ⟨rfl, rfl, hrest⟩ := heq
          exact ⟨rfl, hw c2 (List.mem_cons_self c2 w'),
            c2 :: w', hw, by simp [hrest]⟩

theorem wfPlaceholder_ne_nil (p : List Char) (h : wfPlaceholder p) : p ≠ [] := by
  rcases (wfPlaceholder_iff p).1 h with ⟨w, _, _, rfl⟩
  simp

/-- Inside a placeholder body (word run plus closing `>`) no character is
`<`. -/
theorem words_gt_ne_lt (w : List Char) (hw : ∀ c ∈ w, isWordChar c = true) :
    ∀ c ∈ w ++ ['>'], c ≠ '<' := by
  intro c hc
  rcases List.mem_append.1 hc with hc | hc
  · intro hcontra
    subst hcontra
    have := hw '<' hc
    simp [isWordChar] at this
  · intro hcontra
    subst hcontra
    simp at hc

/-- Two distinct well-formed placeholders cannot be aligned so that one is a
prefix of (a continuation of) the other. -/
theorem prefixClash (P Q y b : List Char) (hP : wfPlaceholder P) (hQ : wfPlaceholder Q)
    (hlen : P.length < Q.length) (heq : P ++ y = Q ++ b) : False := by
  rcases (wfPlaceholder_iff P).1 hP with ⟨w, hwne, hw, rfl⟩
  rcases (wfPlaceholder_iff Q).1 hQ with ⟨w', _, hw', rfl⟩
  simp only [List.cons_append, List.cons.injEq, true_and] at heq
  have hlen' : w.length + 1 ≤ w'.length := by
    simp only [List.length_cons, List.length_append, List.length_singleton] at hlen
    omega
  have h1 : ((w ++ ['>']) ++ y).take (w.length + 1) = w ++ ['>'] :=
    List.take_left' (by simp)
  have h2 : ((w' ++ ['>']) ++ b).take (w.length + 1) = w'.take (w.length + 1) := by
    rw [List.take_append_of_le_length (by simp; omega),
      List.take_append_of_le_length hlen']
  have h3 : w ++ ['>'] = w'.take (w.length + 1) := by rw [← h1, heq, h2]
  have hmem : '>' ∈ w'.take (w.length + 1) := by
    rw [← h3]
    simp
  have := hw' '>' (List.take_subset _ _ hmem)
  simp [isWordChar] at this

/-- Core clash lemma: a well-formed placeholder `Q` distinct from `P` cannot
occur starting strictly inside (or aligned with) an occurrence of `P`. -/
theorem coreClash (P Q m y b : List Char) (hP : wfPlaceholder P) (hQ : wfPlaceholder Q)
    (hne : P ≠ Q) (heq : P ++ y = m ++ Q ++ b) (hlen : m.length < P.length) : False := by
  cases m with
  | nil =>
    simp only [List.nil_append] at heq
    rcases Nat.lt_trichotomy P.length Q.length with h | h | h
    · exact prefixClash P Q y b hP hQ h heq
    · exact hne (List.append_inj_left heq h)
    · exact prefixClash Q P b y hQ hP h heq.symm
  | cons c m' =>
    have hm : P.take (c :: m').length = c :: m' := by
      have t1 : (P ++ y).take (c :: m').length = P.take (c :: m').length :=
        List.take_append_of_le_length (Nat.le_of_lt hlen)
      have t2 : ((c :: m') ++ (Q ++ b)).take (c :: m').length = c :: m' :=
        List.take_left _ _
      rw [← t1, show P ++ y = (c :: m') ++ (Q ++ b) from by simpa using heq, t2]
    have hsplit : P = (c :: m') ++ P.drop (c :: m').length := by
      conv_lhs => rw [← List.take_append_drop (c :: m').length P]
      rw [hm]
    have hP2ne : P.drop (c :: m').length ≠ [] := by
      intro hcontra
      have hl := congrArg List.length hcontra
      rw [List.length_drop] at hl
      simp only [List.length_nil] at hl
      omega
    have heq2 : P.drop (c :: m').length ++ y = Q ++ b := by
      have : (c :: m') ++ (P.drop (c :: m').length ++ y) = (c :: m') ++ (Q ++ b) := by
        rw [← List.append_assoc, ← hsplit]
        simpa using heq
      exact List.append_cancel_left this
    rcases (wfPlaceholder_iff P).1 hP with ⟨w, hwne, hw, hPform⟩
    rcases (wfPlaceholder_iff Q).1 hQ with ⟨w', _, _, hQform⟩
    cases hd : P.drop (c :: m').length with
    | nil => exact hP2ne hd
    | cons d ds =>
      have hdQ : d = '<' := by
        rw [hd, hQform] at heq2
        simp only [List.cons_append] at heq2
        injection heq2 with h1 _
      have hdmem : d ∈ w ++ ['>'] := by
        have hsplit2 : P = (c :: m') ++ d :: ds := by rw [hsplit, hd]
        rw [hPform] at hsplit2
        simp only [List.cons_append] at hsplit2
        injection hsplit2 with _ htail
        rw [htail]
        exact List.mem_append.2 (Or.inr (List.mem_cons_self d ds))
      exact words_gt_ne_lt w hw d hdmem hdQ


/-- A block of text at no position of which the pattern starts is copied
verbatim by the `str.replace` scan. -/
theorem blockSkip (K V : List Char) :
    ∀ (m u : List Char),
      (∀ i, i < m.length → leadsWith K (List.drop i (m ++ u)) = false) →
      pyReplaceCore K V (m ++ u) = m ++ pyReplaceCore K V u := by
  intro m
  induction m with
  | nil => intro u _; simp
  | cons c m' ih =>
    intro u h
    have h0 : leadsWith K (c :: (m' ++ u)) = false := by
      have := h 0 (by simp)
      simpa using this
    rw [List.cons_append, pyReplaceCore_cons, if_neg (by simp [h0])]
    rw [ih u (fun i hi => by
      have := h (i + 1) (by simp only [List.length_cons]; omega)
      simpa using this)]
    rfl

/-- The `str.replace` scan on a string starting with the pattern substitutes
at once and continues past it. -/
theorem pyReplaceCore_self_append (K V u : List Char) (hne : K ≠ []) :
    pyReplaceCore K V (K ++ u) = V ++ pyReplaceCore K V u := by
  cases K with
  | nil => exact absurd rfl hne
  | cons k0 K' =>
    rw [List.cons_append, pyReplaceCore_cons]
    rw [if_pos ⟨hne, by rw [← List.cons_append]; exact leadsWith_append _ _⟩]
    congr 1
    rw [← List.cons_append, List.drop_left]

/-! ### Segment decompositions and the renderer -/

theorem flattenSegs_nil : flattenSegs [] = [] := rfl

theorem flattenSegs_cons (s : Seg) (segs : List Seg) :
    flattenSegs (s :: segs) = segContent s ++ flattenSegs segs := by
  simp [flattenSegs]

theorem segTokens_mem (k : List Char) :
    ∀ segs : List Seg, k ∈ segTokens segs ↔ Seg.key k ∈ segs := by
  intro segs
  induction segs with
  | nil => simp [segTokens]
  | cons s rest ih =>
    cases s with
    | lit l =>
      simp only [segTokens, ih]
      constructor
      · intro h; exact List.mem_cons_of_mem _ h
      · intro h
        rcases List.mem_cons.1 h with h | h
        · cases h
        · exact h
    | key k' =>
      simp only [segTokens, List.mem_cons, ih, Seg.key.injEq]

/-- Replacing one well-formed placeholder key over a well-decomposed template
acts segment-wise: every matching placeholder segment becomes the replacement
text, everything else is untouched. -/
theorem pyReplaceCore_flattenSegs (K V : List Char) (hK : wfPlaceholder K) :
    ∀ segs : List Seg, goodSegs segs →
      pyReplaceCore K V (flattenSegs segs) =
        flattenSegs (segs.map (fun s => if s = Seg.key K then Seg.lit V else s)) := by
  have hKne : K ≠ [] := wfPlaceholder_ne_nil K hK
  intro segs
  induction segs with
  | nil => intro _; simp [flattenSegs, pyReplaceCore_nil]
  | cons s rest ih =>
    intro hgood
    have hgood' : goodSegs rest := fun s hs => hgood s (List.mem_cons_of_mem _ hs)
    have ihr := ih hgood'
    cases s with
    | lit l =>
      have hl : '<' ∉ l := hgood (Seg.lit l) (List.mem_cons_self _ _)
      have hskip : ∀ i, i < l.length →
          leadsWith K (List.drop i (l ++ flattenSegs rest)) = false := by
        intro i hi
        rcases (wfPlaceholder_iff K).1 hK with ⟨w', _, _, hKform⟩
        by_contra hcontra
        have hlw : leadsWith K (List.drop i (l ++ flattenSegs rest)) = true := by
          cases hx : leadsWith K (List.drop i (l ++ flattenSegs rest))
          · exact absurd hx hcontra
          · rfl
        rcases (leadsWith_iff _ _).1 hlw with ⟨t, ht⟩
        rw [List.drop_append_of_le_length (Nat.le_of_lt hi)] at ht
        have hne : l.drop i ≠ [] := by
          intro hcon
          have hlen := congrArg List.length hcon
          rw [List.length_drop] at hlen
          simp only [List.length_nil] at hlen
          omega
        cases hdrop : l.drop i with
        | nil => exact hne hdrop
        | cons d ds =>
          rw [hdrop, hKform] at ht
          simp only [List.cons_append] at ht
          have hd : d = '<' := by injection ht
          apply hl
          rw [← hd]
          exact List.drop_subset i l (hdrop ▸ List.mem_cons_self d ds)
      rw [flattenSegs_cons]
      show pyReplaceCore K V (l ++ flattenSegs rest) = _
      rw [blockSkip K V l (flattenSegs rest) hskip, ihr]
      simp [flattenSegs_cons, segContent]
    | key k =>
      have hkwf : wfPlaceholder k := hgood (Seg.key k) (List.mem_cons_self _ _)
      have hkne : k ≠ [] := wfPlaceholder_ne_nil k hkwf
      by_cases hkK : k = K
      · subst hkK
        rw [flattenSegs_cons]
        show pyReplaceCore k V (k ++ flattenSegs rest) = _
        rw [pyReplaceCore_self_append k V (flattenSegs rest) hkne, ihr]
        simp [flattenSegs_cons, segContent]
      · have hskip : ∀ i, i < k.length →
            leadsWith K (List.drop i (k ++ flattenSegs rest)) = false := by
          intro i hi
          by_contra hcontra
          have hlw : leadsWith K (List.drop i (k ++ flattenSegs rest)) = true := by
            cases hx : leadsWith K (List.drop i (k ++ flattenSegs rest))
            · exact absurd hx hcontra
            · rfl
          rcases (leadsWith_iff _ _).1 hlw with ⟨t, ht⟩
          cases i with
          | zero =>
            simp only [List.drop_zero] at ht
            have hkpos : 0 < k.length := List.length_pos.2 hkne
            exact coreClash k K [] (flattenSegs rest) t hkwf hK hkK (by simpa using ht)
              (by simpa using hkpos)
          | succ j =>
            rw [List.drop_append_of_le_length (Nat.le_of_lt hi)] at ht
            rcases (wfPlaceholder_iff k).1 hkwf with ⟨w, _, hw, hkform⟩
            rcases (wfPlaceholder_iff K).1 hK with ⟨w', _, _, hKform⟩
            have hne : k.drop (j + 1) ≠ [] := by
              intro hcon
              have hlen := congrArg List.length hcon
              rw [List.length_drop] at hlen
              simp only [List.length_nil] at hlen
              omega
            cases hdrop : k.drop (j + 1) with
            | nil => exact hne hdrop
            | cons d ds =>
              rw [hdrop, hKform] at ht
              simp only [List.cons_append] at ht
              have hd : d = '<' := by injection ht
              have hsub : k.drop (j + 1) ⊆ w ++ ['>'] := by
                rw [hkform, List.drop_succ_cons]
                exact List.drop_subset j _
              have hdmem : d ∈ w ++ ['>'] :=
                hsub (hdrop ▸ List.mem_cons_self d ds)
              exact words_gt_ne_lt w hw d hdmem hd
        rw [flattenSegs_cons]
        show pyReplaceCore K V (k ++ flattenSegs rest) = _
        rw [blockSkip K V k (flattenSegs rest) hskip, ihr]
        simp [flattenSegs_cons, segContent, hkK]

theorem substSegs_nil_repl : ∀ segs : List Seg, substSegs [] segs = flattenSegs segs := by
  intro segs
  induction segs with
  | nil => rfl
  | cons s rest ih =>
    cases s with
    | lit l => simp [flattenSegs_cons, substSegs, segContent, ih]
    | key k => simp [flattenSegs_cons, substSegs, segContent, lookupKey, ih]

theorem substSegs_map_key (K V : List Char) (R : List (List Char × List Char)) :
    ∀ segs : List Seg,
      substSegs R (segs.map (fun s => if s = Seg.key K then Seg.lit V else s)) =
        substSegs ((K, V) :: R) segs := by
  intro segs
  induction segs with
  | nil => rfl
  | cons s rest ih =>
    cases s with
    | lit l =>
      simp only [List.map_cons, if_neg (by simp : ¬ Seg.lit l = Seg.key K), substSegs]
      rw [ih]
    | key k =>
      by_cases hkK : k = K
      · subst hkK
        simp [substSegs, lookupKey, ih]
      · simp [substSegs, lookupKey, hkK, Ne.symm hkK, ih]

/-- The sequential replacement loop of `create_file_from_template` computes
the ideal simultaneous substitution on a well-decomposed template, provided
the keys are well-formed placeholders and no replacement value contains
`<`. -/
theorem render_eq_substSegs (repl : List (List Char × TValue)) :
    ∀ segs : List Seg, goodSegs segs →
      (∀ kv ∈ repl, wfPlaceholder kv.1) →
      (∀ kv ∈ repl, '<' ∉ resolveValue kv.2) →
      render (flattenSegs segs) repl = substSegs (resolveRepl repl) segs := by
  induction repl with
  | nil =>
    intro segs _ _ _
    exact (substSegs_nil_repl segs).symm
  | cons kv rest ih =>
    intro segs hgood hwf hlt
    have hkwf : wfPlaceholder kv.1 := hwf kv (List.mem_cons_self _ _)
    have hkne : kv.1 ≠ [] := wfPlaceholder_ne_nil _ hkwf
    have hstep : render (flattenSegs segs) (kv :: rest) =
        render (pyReplace (flattenSegs segs) kv.1 (resolveValue kv.2)) rest := rfl
    rw [hstep]
    have hrepl : pyReplace (flattenSegs segs) kv.1 (resolveValue kv.2) =
        pyReplaceCore kv.1 (resolveValue kv.2) (flattenSegs segs) := by
      simp [pyReplace, hkne]
    rw [hrepl, pyReplaceCore_flattenSegs kv.1 (resolveValue kv.2) hkwf segs hgood]
    have hgood' : goodSegs
        (segs.map (fun s => if s = Seg.key kv.1 then Seg.lit (resolveValue kv.2) else s)) := by
      intro s hs
      rcases List.mem_map.1 hs with ⟨s0, hs0, hmap⟩
      by_cases h0 : s0 = Seg.key kv.1
      · rw [if_pos h0] at hmap
        subst hmap
        exact hlt kv (List.mem_cons_self _ _)
      · rw [if_neg h0] at hmap
        subst hmap
        exact hgood s0 hs0
    rw [ih _ hgood' (fun q hq => hwf q (List.mem_cons_of_mem _ hq))
      (fun q hq => hlt q (List.mem_cons_of_mem _ hq))]
    exact substSegs_map_key kv.1 (resolveValue kv.2) (resolveRepl rest) segs

/-! ### Facts about the substituted output -/

theorem lookupKey_mem (R : List (List Char × List Char)) (k v : List Char)
    (h : lookupKey R k = some v) : (k, v) ∈ R := by
  induction R with
  | nil => simp [lookupKey] at h
  | cons kv rest ih =>
    by_cases hk : kv.1 = k
    · simp only [lookupKey, if_pos hk] at h
      cases h
      have hkv : (k, kv.2) = kv := by rw [← hk]
      rw [hkv]
      exact List.mem_cons_self _ _
    · simp only [lookupKey, if_neg hk] at h
      exact List.mem_cons_of_mem _ (ih h)

theorem lt_not_mem_substSegs (R : List (List Char × List Char))
    (hR : ∀ kv ∈ R, '<' ∉ kv.2) :
    ∀ segs : List Seg, goodSegs segs →
      (∀ k ∈ segTokens segs, (lookupKey R k).isSome = true) →
      '<' ∉ substSegs R segs := by
  intro segs
  induction segs with
  | nil => intro _ _; simp [substSegs]
  | cons s rest ih =>
    intro hgood hcover
    have hgood' : goodSegs rest := fun x hx => hgood x (List.mem_cons_of_mem _ hx)
    cases s with
    | lit l =>
      have hl : '<' ∉ l := hgood (Seg.lit l) (List.mem_cons_self _ _)
      have hrest := ih hgood' (fun k hk => hcover k (by simpa [segTokens] using hk))
      simp only [substSegs, List.mem_append]
      rintro (h | h)
      · exact hl h
      · exact hrest h
    | key k =>
      have hksome : (lookupKey R k).isSome = true :=
        hcover k (by simp [segTokens])
      rcases Option.isSome_iff_exists.1 hksome with ⟨v, hv⟩
      have hvlt : '<' ∉ v := hR (k, v) (lookupKey_mem R k v hv)
      have hrest := ih hgood' (fun k' hk' => hcover k' (by simp [segTokens, hk']))
      simp only [substSegs, hv, Option.getD_some, List.mem_append]
      rintro (h | h)
      · exact hvlt h
      · exact hrest h

theorem substSegs_contains_value (R : List (List Char × List Char)) (k v : List Char)
    (hv : lookupKey R k = some v) :
    ∀ segs : List Seg, Seg.key k ∈ segs → occurs v (substSegs R segs) := by
  intro segs
  induction segs with
  | nil => intro h; simp at h
  | cons s rest ih =>
    intro hmem
    rcases List.mem_cons.1 hmem with heq | hmem'
    · rw [← heq]
      simp only [substSegs, hv, Option.getD_some]
      exact (occurs_iff v _).2 ⟨[], substSegs R rest, by simp⟩
    · cases s with
      | lit l =>
        simp only [substSegs]
        exact occurs_append_right l v _ (ih hmem')
      | key k' =>
        simp only [substSegs]
        exact occurs_append_right _ v _ (ih hmem')

theorem wf_not_occurs_of_lt_not_mem (P u : List Char) (hP : wfPlaceholder P)
    (hlt : '<' ∉ u) : ¬ occurs P u := by
  intro hocc
  rcases (occurs_iff P u).1 hocc with ⟨a, b, rfl⟩
  rcases (wfPlaceholder_iff P).1 hP with ⟨w, _, _, rfl⟩
  exact hlt (by simp)

/-- Survival of a well-formed placeholder under replacement of a different
well-formed key: distinct placeholders can never overlap, so every occurrence
of `P` is preserved by `s.replace(K, V)`. -/
theorem occurs_pyReplaceCore (P K V : List Char) (hP : wfPlaceholder P)
    (hK : wfPlaceholder K) (hne : P ≠ K) :
    ∀ n s, s.length ≤ n → occurs P s → occurs P (pyReplaceCore K V s) := by
  have hPne : P ≠ [] := wfPlaceholder_ne_nil P hP
  have hKne : K ≠ [] := wfPlaceholder_ne_nil K hK
  intro n
  induction n with
  | zero =>
    intro s hlen hocc
    have hs : s = [] := List.eq_nil_of_length_eq_zero (Nat.le_zero.1 hlen)
    subst hs
    exact absurd hocc (not_occurs_nil P hPne)
  | succ n ih =>
    intro s hlen hocc
    rcases (occurs_iff P s).1 hocc with ⟨x, y, hxy⟩
    cases x with
    | nil =>
      simp only [List.nil_append] at hxy
      subst hxy
      have hskip : ∀ i, i < P.length → leadsWith K (List.drop i (P ++ y)) = false := by
        intro i hi
        by_contra hcontra
        have hlw : leadsWith K (List.drop i (P ++ y)) = true := by
          cases hx : leadsWith K (List.drop i (P ++ y))
          · exact absurd hx hcontra
          · rfl
        rcases (leadsWith_iff _ _).1 hlw with ⟨t, ht⟩
        have hPy : P ++ y = (P ++ y).take i ++ K ++ t := by
          rw [List.append_assoc, ← ht, List.take_append_drop]
        have hilen : ((P ++ y).take i).length < P.length := by
          simp only [List.length_take, List.length_append]
          omega
        exact coreClash P K ((P ++ y).take i) y t hP hK hne hPy hilen
      rw [blockSkip K V P y hskip]
      exact (occurs_iff _ _).2 ⟨[], pyReplaceCore K V y, by simp⟩
    | cons c' x' =>
      by_cases hlead : leadsWith K s = true
      · rcases (leadsWith_iff _ _).1 hlead with ⟨t, ht⟩
        by_cases hx : K.length ≤ (c' :: x').length
        · have h1 : s.take K.length = K := by
            rw [ht]
            exact List.take_left _ _
          have h2 : s.take K.length = (c' :: x').take K.length := by
            rw [hxy, List.append_assoc]
            exact List.take_append_of_le_length hx
          have hsplit : c' :: x' = K ++ (c' :: x').drop K.length := by
            conv_lhs => rw [← List.take_append_drop K.length (c' :: x')]
            rw [← h2, h1]
          have ht2 : t = (c' :: x').drop K.length ++ P ++ y := by
            have hKcancel : K ++ t = K ++ ((c' :: x').drop K.length ++ P ++ y) := by
              rw [← ht, hxy]
              conv_lhs => rw [hsplit]
              simp [List.append_assoc]
            exact List.append_cancel_left hKcancel
          have hocct : occurs P t := (occurs_iff _ _).2 ⟨_, _, ht2⟩
          have hlent : t.length ≤ n := by
            have hlens := congrArg List.length ht
            rw [List.length_append] at hlens
            have hKpos : 0 < K.length := List.length_pos.2 hKne
            omega
          rw [ht, pyReplaceCore_self_append K V t hKne]
          exact occurs_append_right V P _ (ih t hlent hocct)
        · push_neg at hx
          have heq2 : K ++ t = (c' :: x') ++ P ++ y := by
            rw [← ht, hxy]
          exact absurd heq2
            (fun h => coreClash K P (c' :: x') t y hK hP (fun h0 => hne h0.symm) h hx)
      · have hform : (c' :: x') ++ P ++ y = c' :: (x' ++ P ++ y) := by simp
        subst hxy
        rw [hform, pyReplaceCore_cons,
          if_neg (fun hcond => hlead (by rw [hform]; exact hcond.2))]
        have hlen' : (x' ++ P ++ y).length ≤ n := by
          rw [hform] at hlen
          simp only [List.length_cons] at hlen
          omega
        exact occurs_cons c' P _ (ih (x' ++ P ++ y) hlen' (occurs_middle x' P y))

theorem lookupKey_resolveRepl (repl : List (List Char × TValue))
    (hnodup : (repl.map (fun kv => kv.1)).Nodup) :
    ∀ kv ∈ repl, lookupKey (resolveRepl repl) kv.1 = some (resolveValue kv.2) := by
  induction repl with
  | nil => intro kv hkv; simp at hkv
  | cons q rest ih =>
    intro kv hkv
    rcases List.mem_cons.1 hkv with rfl | hkv'
    · simp [resolveRepl, lookupKey]
    · rw [List.map_cons] at hnodup
      have hq1 : q.1 ≠ kv.1 := by
        intro hcontra
        exact (List.nodup_cons.1 hnodup).1
          (hcontra ▸ List.mem_map_of_mem (fun kv => kv.1) hkv')
      have ihr := ih (List.nodup_cons.1 hnodup).2 kv hkv'
      simpa [resolveRepl, lookupKey, hq1] using ihr

/-! ### Claims about the template renderer -/

/-- C3 counterexample: with the template `<A>` containing the single key
`<A>` exactly once and the replacement value `<A>x`, the rendered output
still contains the placeholder key `<A>`, so the round-trip claim fails as
stated. -/
theorem c3_self_reference_fails :
    countOcc "<A>".data "<A>".data = 1 ∧
    occurs "<A>".data (render "<A>".data [("<A>".data, TValue.str "<A>x".data)]) := by
  decide

/-- C3 (amended): for a template decomposing into `<`-free literal chunks and
placeholder occurrences covered by the mapping, with pairwise-distinct
well-formed placeholder keys, each occurring in the template, and resolved
values containing no `<`: the rendered output is exactly the simultaneous
substitution (each key occurrence replaced in place by its resolved value),
it contains none of the placeholder keys, and it contains each key's
resolved value. -/
theorem c3_round_trip (repl : List (List Char × TValue)) (segs : List Seg)
    (hnodup : (repl.map (fun kv => kv.1)).Nodup)
    (hwf : ∀ kv ∈ repl, wfPlaceholder kv.1)
    (hvals : ∀ kv ∈ repl, '<' ∉ resolveValue kv.2)
    (hgood : goodSegs segs)
    (hcover : ∀ k ∈ segTokens segs, (lookupKey (resolveRepl repl) k).isSome = true)
    (hkeys : ∀ kv ∈ repl, kv.1 ∈ segTokens segs) :
    render (flattenSegs segs) repl = substSegs (resolveRepl repl) segs ∧
    (∀ kv ∈ repl, ¬ occurs kv.1 (render (flattenSegs segs) repl)) ∧
    (∀ kv ∈ repl, occurs (resolveValue kv.2) (render (flattenSegs segs) repl)) := by
  have hmain := render_eq_substSegs repl segs hgood hwf hvals
  have hRlt : ∀ kv ∈ resolveRepl repl, '<' ∉ kv.2 := by
    intro kv hkv
    rcases List.mem_map.1 hkv with ⟨q, hq, rfl⟩
    exact hvals q hq
  have hout : '<' ∉ substSegs (resolveRepl repl) segs :=
    lt_not_mem_substSegs _ hRlt segs hgood hcover
  refine ⟨hmain, ?_, ?_⟩
  · intro kv hkv
    rw [hmain]
    exact wf_not_occurs_of_lt_not_mem kv.1 _ (hwf kv hkv) hout
  · intro kv hkv
    rw [hmain]
    exact substSegs_contains_value _ kv.1 (resolveValue kv.2)
      (lookupKey_resolveRepl repl hnodup kv hkv) segs
      ((segTokens_mem kv.1 segs).1 (hkeys kv hkv))

/-- Witness for C3 at the spec's example: rendering
`Name: <NAME>, Damage: <DAMAGE>` with `<NAME> := Sword`, `<DAMAGE> := 10`. -/
theorem c3_round_trip_witness :
    render (flattenSegs segsExample) replExample =
      substSegs (resolveRepl replExample) segsExample ∧
    render (flattenSegs segsExample) replExample = "Name: Sword, Damage: 10".data := by
  have h := c3_round_trip replExample segsExample (by decide) (by decide) (by decide)
    (by decide) (by decide) (by decide)
  refine ⟨h.1, ?_⟩
  rw [h.1]
  decide

/-- C6 counterexample: the template `a<B>c` contains the placeholder `<B>`,
which is not a key of the mapping `{"B>": ""}`; yet the rendered output
`a<c` no longer contains `<B>`, so the claim fails as stated for arbitrary
replacement mappings. -/
theorem c6_arbitrary_key_destroys :
    wfPlaceholder "<B>".data ∧
    occurs "<B>".data "a<B>c".data ∧
    "B>".data ≠ "<B>".data ∧
    ¬ occurs "<B>".data (render "a<B>c".data [("B>".data, TValue.str [])]) := by
  decide

/-- C6 (amended): for a replacement mapping whose keys are all well-formed
angle-bracket placeholders, every well-formed placeholder occurring in the
template that is not a key of the mapping still occurs verbatim in the
rendered output (and the renderer is a total function, so no error or
warning is produced). -/
theorem c6_unmatched_placeholder_survives (repl : List (List Char × TValue))
    (t p : List Char) (hp : wfPlaceholder p)
    (hwf : ∀ kv ∈ repl, wfPlaceholder kv.1)
    (hnk : ∀ kv ∈ repl, kv.1 ≠ p)
    (hocc : occurs p t) :
    occurs p (render t repl) := by
  revert hwf hnk hocc
  induction repl generalizing t with
  | nil =>
    intro _ _ hocc
    exact hocc
  | cons kv rest ih =>
    intro hwf hnk hocc
    have hkwf : wfPlaceholder kv.1 := hwf kv (List.mem_cons_self _ _)
    have hkne : kv.1 ≠ [] := wfPlaceholder_ne_nil _ hkwf
    have hstep : render t (kv :: rest) =
        render (pyReplace t kv.1 (resolveValue kv.2)) rest := rfl
    rw [hstep]
    have hrw : pyReplace t kv.1 (resolveValue kv.2) =
        pyReplaceCore kv.1 (resolveValue kv.2) t := by
      simp [pyReplace, hkne]
    rw [hrw]
    exact ih (pyReplaceCore kv.1 (resolveValue kv.2) t)
      (fun q hq => hwf q (List.mem_cons_of_mem _ hq))
      (fun q hq => hnk q (List.mem_cons_of_mem _ hq))
      (occurs_pyReplaceCore p kv.1 (resolveValue kv.2) hp hkwf
        (fun h => hnk kv (List.mem_cons_self _ _) h.symm) t.length t (Nat.le_refl _) hocc)

/-- Witness for C6: the placeholder `<KEEP>` is not a key of the mapping and
survives rendering. -/
theorem c6_unmatched_placeholder_survives_witness :
    occurs "<KEEP>".data
      (render "Hi <NAME> <KEEP>".data [("<NAME>".data, TValue.str "Bob".data)]) :=
  c6_unmatched_placeholder_survives [("<NAME>".data, TValue.str "Bob".data)]
    "Hi <NAME> <KEEP>".data "<KEEP>".data (by decide) (by decide) (by decide) (by decide)
